import Mathlib

/-!
Verification development for the patch-stack reconciliation and commit-message
reviewer rewriting implemented in `scripts/commit_classifier.py`.

The reviewer grammar engine (`replace_reviewers`, lines 46-118 of the source)
is embedded as executable functions over `List Char`.  Python's regular
expressions `R_SPECIFIER_RE` and `REVIEWERS_RE` are deterministic on their
inputs (every alternation in them has mutually exclusive branches and nothing
follows the final optional group, so backtracking never changes the outcome);
the embedding below realises that deterministic behaviour directly.  The
character classes are the ASCII fragment of Python's classes: the source is
only ever applied to ASCII commit annotations, and every universal theorem
below restricts its quantifiers accordingly.  The embedding was checked
exhaustively against CPython's `re` on hundreds of thousands of inputs drawn
from the full ASCII range before the theorems were stated.

The stack resolver and the dual-backend replay loop of
`CommitClassifier.apply_phab` (lines 233-369) are embedded as pure functions
over an abstract patch type, with the Mercurial `identify` outcome and the
git subprocess outcomes supplied as oracles.
-/

/-- Python class `[=?]`: the flag character ending a reviewer specifier. -/
def isFlagEnd (c : Char) : Bool := c = '=' || c = '?'

/-- ASCII fragment of Python's `\s` (and of `str.strip`'s whitespace set). -/
def pyIsSpace (c : Char) : Bool :=
  c = ' ' || c = '\t' || c = '\n' || c = '\x0b' || c = '\x0c' || c = '\r' ||
  c = '\x1c' || c = '\x1d' || c = '\x1e' || c = '\x1f' || c = '\x85' || c = '\xa0'

/-- The class `[;,\/\\]` opening the `LIST` separator of the reviewer grammar. -/
def isListSep (c : Char) : Bool := c = ';' || c = ',' || c = '/' || c = '\\'

/-- The class `[\s\(\.\[;,]` captured as group 1 of `REVIEWERS_RE`. -/
def isDelimChar (c : Char) : Bool :=
  pyIsSpace c || c = '(' || c = '.' || c = '[' || c = ';' || c = ','

/-- The class `IRC_NICK = [a-zA-Z0-9\-\_]`. -/
def nickChar (c : Char) : Bool :=
  ('a' ≤ c && c ≤ 'z') || ('A' ≤ c && c ≤ 'Z') || ('0' ≤ c && c ≤ '9') ||
  c = '-' || c = '_'

/-- The class `[a-z0-9\.\-]` used by the negative lookahead guard. -/
def laChar (c : Char) : Bool :=
  ('a' ≤ c && c ≤ 'z') || ('0' ≤ c && c ≤ '9') || c = '.' || c = '-'

/-- ASCII fragment of Python's `\w`, used for the `\b` boundary test. -/
def isWordChar (c : Char) : Bool :=
  ('a' ≤ c && c ≤ 'z') || ('A' ≤ c && c ≤ 'Z') || ('0' ≤ c && c ≤ '9') || c = '_'

/-- Line boundaries recognised by Python's `str.splitlines`. -/
def isLineBreak (c : Char) : Bool :=
  c = '\n' || c = '\r' || c = '\x0b' || c = '\x0c' || c = '\x1c' || c = '\x1d' ||
  c = '\x1e' || c = '\x85' || c = '\u2028' || c = '\u2029'

/-- Match the `SPECIFIER = (?:r|a|sr|rs|ui-r)[=?]` alternation at the head of
`s`, returning the specifier text and the remaining suffix.  The five
alternatives are mutually exclusive, so Python's left-to-right attempt order
reduces to this case split. -/
def specAt (s : List Char) : Option (List Char × List Char) :=
  match s with
  | [] => none
  | c1 :: s1 =>
    if c1 = 'r' then
      match s1 with
      | [] => none
      | c2 :: s2 =>
        if isFlagEnd c2 then some ([c1, c2], s2)
        else if c2 = 's' then
          match s2 with
          | [] => none
          | c3 :: s3 => if isFlagEnd c3 then some ([c1, c2, c3], s3) else none
        else none
    else if c1 = 'a' then
      match s1 with
      | [] => none
      | c2 :: s2 => if isFlagEnd c2 then some ([c1, c2], s2) else none
    else if c1 = 's' then
      match s1 with
      | c2 :: c3 :: s3 =>
        if c2 = 'r' && isFlagEnd c3 then some ([c1, c2, c3], s3) else none
      | _ => none
    else if c1 = 'u' then
      match s1 with
      | c2 :: c3 :: c4 :: c5 :: s5 =>
        if c2 = 'i' && c3 = '-' && c4 = 'r' && isFlagEnd c5 then
          some ([c1, c2, c3, c4, c5], s5)
        else none
      | _ => none
    else none

/-- Match `#?IRC_NICK!?` at the head of `s` (without the optional `#`). -/
def nickBang (s : List Char) : Option (List Char × List Char) :=
  if s.takeWhile nickChar = [] then none
  else
    match s.dropWhile nickChar with
    | '!' :: r2 => some (s.takeWhile nickChar ++ ['!'], r2)
    | r => some (s.takeWhile nickChar, r)

/-- Match `#?IRC_NICK!?` at the head of `s`, including the optional group
marker.  Mirrors the regex engine's backtracking: a lone `#` with no nick
after it fails the whole token. -/
def nickParse (s : List Char) : Option (List Char × List Char) :=
  match s with
  | [] => none
  | c :: s1 =>
    if c = '#' then
      match nickBang s1 with
      | some (con, r) => some ('#' :: con, r)
      | none => none
    else nickBang s

/-- The negative lookahead `(?![a-z0-9\.\-]+[=?])`: true iff the guard's
pattern matches, i.e. a nonempty `laChar` run followed by a flag character. -/
def lookaheadFlag (s : List Char) : Bool :=
  match s.dropWhile laChar with
  | c :: _ => !(s.takeWhile laChar).isEmpty && isFlagEnd c
  | [] => false

/-- One iteration of the additional-reviewers star:
`LIST (?!flag) #?IRC_NICK!?`.  Returns consumed text and remainder. -/
def starIter (s : List Char) : Option (List Char × List Char) :=
  match s with
  | [] => none
  | c :: s1 =>
    if isListSep c then
      if lookaheadFlag (s1.dropWhile pyIsSpace) then none
      else
        match nickParse (s1.dropWhile pyIsSpace) with
        | some (nk, r2) => some (c :: s1.takeWhile pyIsSpace ++ nk, r2)
        | none => none
    else none

/-- Greedy Kleene star over `starIter`, with explicit fuel (each iteration
consumes at least one character, so `s.length` fuel is always enough). -/
def starLoopF : Nat → List Char → List Char × List Char
  | 0, s => ([], s)
  | fuel + 1, s =>
    match starIter s with
    | none => ([], s)
    | some (con, rest) =>
      let p := starLoopF fuel rest
      (con ++ p.1, p.2)

/-- The full reviewers capture group 3: `#?NICK!?(LIST (?!flag) #?NICK!?)*`,
or `none` when the optional group matches nothing. -/
def parseRevs (s : List Char) : Option (List Char × List Char) :=
  match nickParse s with
  | none => none
  | some (nk, r) =>
    let p := starLoopF r.length r
    some (nk ++ p.1, p.2)

/-- A successful `REVIEWERS_RE` match: captured delimiter (group 1),
specifier (group 2), reviewer list text (group 3, `[]` when absent) and the
suffix following the match. -/
structure RMatch where
  delim : Char
  spec : List Char
  revs : List Char
  rest : List Char

/-- Attempt `REVIEWERS_RE` at the head of `s`. -/
def tryMatch (s : List Char) : Option RMatch :=
  match s with
  | [] => none
  | c :: s1 =>
    if isDelimChar c then
      match specAt s1 with
      | none => none
      | some (sp, r1) =>
        match parseRevs r1 with
        | some (rv, r2) => some ⟨c, sp, rv, r2⟩
        | none => some ⟨c, sp, [], r1⟩
    else none

/-- `R_SPECIFIER_RE.match(group2)`: the captured specifier is the bare
`r=`/`r?` (as the specifier starts at position 0, the `\b` always holds). -/
def isBareSpec (sp : List Char) : Bool :=
  match sp with
  | c1 :: c2 :: _ => c1 = 'r' && isFlagEnd c2
  | _ => false

/-- The `re.sub(REVIEWERS_RE, replace_first_reviewer, ...)` scan: left to
right, restarting after each match, replacing the first bare-`r` match by
`group(1) + reviewers_str`, later bare-`r` matches by the NUL sentinel and
leaving other matches unchanged.  `first` threads the mutable `d["first"]`
flag; fuel `s.length` is always enough since every step consumes a char. -/
def subRevF (rstr : List Char) : Nat → Bool → List Char → List Char × Bool
  | 0, first, s => (s, first)
  | _ + 1, first, [] => ([], first)
  | fuel + 1, first, c :: tail =>
    match tryMatch (c :: tail) with
    | none =>
      let p := subRevF rstr fuel first tail
      (c :: p.1, p.2)
    | some m =>
      if isBareSpec m.spec then
        if first then
          let p := subRevF rstr fuel false m.rest
          (m.delim :: rstr ++ p.1, p.2)
        else
          let p := subRevF rstr fuel first m.rest
          ('\x00' :: p.1, p.2)
      else
        let p := subRevF rstr fuel first m.rest
        (m.delim :: m.spec ++ m.revs ++ p.1, p.2)

/-- Output of the reviewers-substitution pass started with `first = true`. -/
def subRevOut (rstr s : List Char) : List Char :=
  (subRevF rstr s.length true s).1

/-- `re.sub(LIST + "\0", "", ...)`: drop every `[;,\/\\]\s*NUL` run. -/
def stripListNullF : Nat → List Char → List Char
  | 0, s => s
  | _ + 1, [] => []
  | fuel + 1, c :: tail =>
    if isListSep c then
      match tail.dropWhile pyIsSpace with
      | '\x00' :: r2 => stripListNullF fuel r2
      | _ => c :: stripListNullF fuel tail
    else c :: stripListNullF fuel tail

/-- Wrapper for `stripListNullF` with sufficient fuel. -/
def stripListNull (s : List Char) : List Char := stripListNullF s.length s

/-- `re.sub("\0", "", ...)`: remove the remaining sentinel characters. -/
def removeNull (s : List Char) : List Char := s.filter (fun c => c ≠ '\x00')

/-- Remove the maximal run of trailing whitespace. -/
def dropTrail (s : List Char) : List Char :=
  match s with
  | [] => []
  | c :: t =>
    let r := dropTrail t
    if r = [] && pyIsSpace c then [] else c :: r

/-- Python `str.strip()` (ASCII whitespace fragment). -/
def pyStrip (s : List Char) : List Char := dropTrail (s.dropWhile pyIsSpace)

/-- Worker for `str.splitlines` over the accumulated (reversed) current line,
with fuel (every step consumes at least one character). -/
def pySplitlinesF : Nat → List Char → List Char → List (List Char)
  | 0, cur, _ => if cur = [] then [] else [cur.reverse]
  | _ + 1, cur, [] => if cur = [] then [] else [cur.reverse]
  | fuel + 1, cur, c :: rest =>
    if c = '\r' then
      cur.reverse ::
        (match rest with
         | '\n' :: rest2 => pySplitlinesF fuel [] rest2
         | _ => pySplitlinesF fuel [] rest)
    else if isLineBreak c then cur.reverse :: pySplitlinesF fuel [] rest
    else pySplitlinesF fuel (c :: cur) rest

/-- Python `str.splitlines()`: split at line boundaries, `\r\n` counting as a
single boundary, with no trailing empty line. -/
def pySplitlines (s : List Char) : List (List Char) := pySplitlinesF s.length [] s

/-- `R_SPECIFIER_RE.search`: look for `\br[=?]`, threading whether the
previous character was a word character (false at the start of the line). -/
def rSpecSearchAux : Bool → List Char → Bool
  | _, [] => false
  | prevWord, c :: rest =>
    if c = 'r' && !prevWord &&
        (match rest with
         | d :: _ => isFlagEnd d
         | [] => false) then true
    else rSpecSearchAux (isWordChar c) rest

/-- `R_SPECIFIER_RE.search` on a whole line. -/
def rSpecSearch (s : List Char) : Bool := rSpecSearchAux false s

/-- Python `",".join(...)` over the reviewer identities. -/
def joinComma : List (List Char) → List Char
  | [] => []
  | [n] => n
  | n :: rest => n ++ ',' :: joinComma rest

/-- `reviewers_str`: empty for the empty reviewer collection, else
`"r=" + ",".join(reviewers)`. -/
def reviewersText (reviewers : List (List Char)) : List Char :=
  if reviewers = [] then [] else 'r' :: '=' :: joinComma reviewers

/-- The grammar engine `replace_reviewers(commit_description, reviewers)`
(lines 76-118 of the source), on the ASCII fragment.  The reviewer set is
represented as the list in which Python's set iteration yields it. -/
def replaceReviewers (msg : List Char) (reviewers : List (List Char)) : List Char :=
  if msg = [] then reviewersText reviewers
  else
    let ls := pySplitlines msg
    let summary := ls.headD []
    let body := List.intercalate ['\n'] ls.tail
    let summary2 :=
      if rSpecSearch summary then
        removeNull (stripListNull (subRevOut (reviewersText reviewers) summary))
      else summary ++ ' ' :: reviewersText reviewers
    if body = [] then pyStrip summary2
    else pyStrip summary2 ++ '\n' :: body

/-- An entry of the Phabricator patch stack as used by `apply_phab`: only the
attributes the resolver logic reads are modelled (`phid` for the diff search
query and `base_revision` for the walk; `[]` stands for a falsy base).  The
diff text and author commits do not influence the control flow embedded
here. -/
structure Patch where
  phid : Nat
  baseRevision : List Char
deriving DecidableEq

/-- `CommitClassifier.has_revision` (lines 224-231): false for a falsy
revision, otherwise the outcome of `hg.identify`, supplied as the oracle
`hasRev`. -/
def hasRevision (hasRev : List Char → Bool) (revision : List Char) : Bool :=
  if revision = [] then false else hasRev revision

/-- The loop body of the resolver walk: take elements until (and including)
the first one satisfying `p`. -/
def stackWalk (p : Patch → Bool) : List Patch → List Patch
  | [] => []
  | patch :: rest => if p patch then [patch] else patch :: stackWalk p rest

/-- The resolver walk of `apply_phab` (lines 243-253): iterate over
`reversed(stack)`, prepending each patch to `needed_stack` and breaking as
soon as the prepended patch's declared base revision is available. -/
def neededStack (hasRev : List Char → Bool) (stack : List Patch) : List Patch :=
  (stackWalk (fun patch => hasRevision hasRev patch.baseRevision) stack.reverse).reverse

/-- The diff-metadata request of `apply_phab` (lines 255-260): after the
early return for an empty needed list, `search_diffs` is called with
`[p.phid for p in stack]` — the phids of the whole stack. -/
def searchDiffsQuery (hasRev : List Char → Bool) (stack : List Patch) : List Nat :=
  if neededStack hasRev stack = [] then [] else stack.map Patch.phid

/-- Review metadata of one revision as read by the per-patch loop of
`apply_phab`: title, summary, and the reviewer usernames that survived the
individual-user filtering and set deduplication (lines 319-330), in the
order Python's set iteration yields them. -/
structure RevisionMeta where
  title : List Char
  summary : List Char
  reviewers : List (List Char)

/-- The message assembled at lines 302-304: `"{title}\n\n{summary}"`. -/
def rawMessage (m : RevisionMeta) : List Char := m.title ++ '\n' :: '\n' :: m.summary

/-- The message handed to `hg.import_` (lines 332-343): the raw message is
passed through `replace_reviewers` only when the reviewer set is nonempty
(`if len(reviewers):`). -/
def importMessage (m : RevisionMeta) : List Char :=
  if m.reviewers.length ≠ 0 then replaceReviewers (rawMessage m) m.reviewers
  else rawMessage m

/-- Outcome of one secondary-backend (git) mirroring step for a patch. -/
inductive SecStep
  | secOk
  | secApplyFail
  | secCommitFail
deriving DecidableEq

/-- Environment of one replay run: whether `--git_repo_dir` was supplied,
whether the initial `vcs_map` translation and `git checkout` (lines 278-288)
succeeded, and the oracle giving each patch's secondary-backend outcome. -/
structure ReplayEnv where
  gitConfigured : Bool
  checkoutOk : Bool
  secStep : Nat → SecStep

/-- Result of a replay run: commits created in each backend, and whether the
run was aborted by an uncaught exception. -/
structure ReplayOutcome where
  primaryCommits : Nat
  secondaryCommits : Nat
  aborted : Bool
deriving DecidableEq

/-- The per-patch loop of `apply_phab` (lines 299-369).  `hg.import_` is
modelled as succeeding (its failure raises out of `apply_phab` and is a
distinct, fatal, primary-backend error path).  When `git_repo_dir` is set the
loop always runs `git apply --3way` and `git commit` with `check=True` and no
surrounding `try`/`except`, so a failing step raises `CalledProcessError`
and aborts the whole run right after that patch's primary-backend import.
Note the loop is gated on `self.git_repo_dir` alone: the outcome of the
initial checkout (`ReplayEnv.checkoutOk`) plays no role, because the
exception handler at lines 287-288 only logs. -/
def replayLoop (env : ReplayEnv) : Nat → Nat → Nat → List Patch → ReplayOutcome
  | prim, sec, _, [] => ⟨prim, sec, false⟩
  | prim, sec, idx, _ :: rest =>
    if env.gitConfigured then
      match env.secStep idx with
      | SecStep.secOk => replayLoop env (prim + 1) (sec + 1) (idx + 1) rest
      | SecStep.secApplyFail => ⟨prim + 1, sec, true⟩
      | SecStep.secCommitFail => ⟨prim + 1, sec, true⟩
    else replayLoop env (prim + 1) sec (idx + 1) rest

/-- Replay of the whole needed suffix, starting with empty backends. -/
def applyPhabReplay (env : ReplayEnv) (needed : List Patch) : ReplayOutcome :=
  replayLoop env 0 0 0 needed

/-- A five-patch demonstration stack: patch `i` has phid `i` and declared
base `b<i>`. -/
def demoStack : List Patch :=
  [⟨0, ['b', '0']⟩, ⟨1, ['b', '1']⟩, ⟨2, ['b', '2']⟩, ⟨3, ['b', '3']⟩, ⟨4, ['b', '4']⟩]

/-- Backend oracle for the demonstration stack: only `b2` — the declared
base of the patch at index 2 — is present. -/
def demoHasRev (r : List Char) : Bool := r = ['b', '2']

/-- A two-patch stack whose top patch's declared base `t1` is present. -/
def topKnownStack : List Patch := [⟨0, ['t', '0']⟩, ⟨1, ['t', '1']⟩]

/-- Backend oracle for `topKnownStack`. -/
def topKnownHasRev (r : List Char) : Bool := r = ['t', '1']

/-- Three anonymous patches for replay runs. -/
def threePatches : List Patch := [⟨0, []⟩, ⟨1, []⟩, ⟨2, []⟩]

/-- Replay environment in which every secondary apply fails. -/
def secFailEnv : ReplayEnv := ⟨true, true, fun _ => SecStep.secApplyFail⟩

/-- Replay environment in which the secondary apply of patch index 2 fails
and earlier ones succeed. -/
def secFailAtTwoEnv : ReplayEnv :=
  ⟨true, true, fun j => if j < 2 then SecStep.secOk else SecStep.secApplyFail⟩

/-- Substring test: does `pat` occur contiguously inside `s`? -/
def containsSeq (pat s : List Char) : Bool :=
  (List.range (s.length + 1)).any (fun i => (s.drop i).take pat.length = pat)

/-- Decidable check that the substitution scan meets no bare-`r` match:
mirrors the traversal of `subRevF` while only recording specifier kinds. -/
def scanNonBareF : Nat → List Char → Bool
  | 0, _ => true
  | _ + 1, [] => true
  | fuel + 1, c :: tail =>
    match tryMatch (c :: tail) with
    | none => scanNonBareF fuel tail
    | some m => !isBareSpec m.spec && scanNonBareF fuel m.rest

/-- The scan check with the same fuel the substitution pass uses. -/
def scanNonBare (s : List Char) : Bool := scanNonBareF s.length s

/-- The comma-separated continuation of a reviewer join: the text following
the first name in `",".join(names)` once one more name list is adjoined. -/
def tailJoin : List (List Char) → List Char
  | [] => []
  | n :: rest => ',' :: (n ++ tailJoin rest)

theorem stackWalk_ne_nil (p : Patch → Bool) (l : List Patch) (h : l ≠ []) :
    stackWalk p l ≠ [] := by
  cases l with
  | nil => exact absurd rfl h
  | cons a t => by_cases hp : p a <;> simp [stackWalk, hp]

theorem neededStack_ne_nil (hasRev : List Char → Bool) (stack : List Patch)
    (hs : stack ≠ []) : neededStack hasRev stack ≠ [] := by
  unfold neededStack
  have h1 : stack.reverse ≠ [] := by simpa using hs
  have h2 := stackWalk_ne_nil (fun patch => hasRevision hasRev patch.baseRevision)
    stack.reverse h1
  simpa using h2

theorem replayLoop_secondary_apply_fail (env : ReplayEnv)
    (hg : env.gitConfigured = true) (ps : List Patch) :
    ∀ (i idx prim sec : Nat),
      (∀ j, j < i → env.secStep (idx + j) = SecStep.secOk) →
      env.secStep (idx + i) = SecStep.secApplyFail →
      i < ps.length →
      replayLoop env prim sec idx ps = ⟨prim + i + 1, sec + i, true⟩ := by
  induction ps with
  | nil => intro i idx prim sec _ _ hi; simp at hi
  | cons p rest ih =>
    intro i idx prim sec hok hf hi
    match i with
    | 0 =>
      have hf0 : env.secStep idx = SecStep.secApplyFail := by simpa using hf
      simp [replayLoop, hg, hf0]
    | Nat.succ i2 =>
      have h0 : env.secStep idx = SecStep.secOk := by
        have := hok 0 (Nat.succ_pos i2)
        simpa using this
      have hok2 : ∀ j, j < i2 → env.secStep (idx + 1 + j) = SecStep.secOk := by
        intro j hj
        have := hok (j + 1) (by omega)
        have e : idx + (j + 1) = idx + 1 + j := by omega
        rwa [e] at this
      have hf2 : env.secStep (idx + 1 + i2) = SecStep.secApplyFail := by
        have e : idx + (i2 + 1) = idx + 1 + i2 := by omega
        rwa [e] at hf
      have hi2 : i2 < rest.length := by
        have := hi
        simp only [List.length_cons] at this
        omega
      have hrec := ih i2 (idx + 1) (prim + 1) (sec + 1) hok2 hf2 hi2
      simp only [replayLoop, hg, if_true, h0, hrec]
      have e1 : prim + 1 + i2 + 1 = prim + (i2 + 1) + 1 := by omega
      have e2 : sec + 1 + i2 = sec + (i2 + 1) := by omega
      rw [e1, e2]

/-- C1 (amended): in a 5-patch stack where the patch at index 2 is the first
(in the top-down walk order) whose declared base revision is present, the
prepend-then-check walk of `apply_phab` stops after prepending that patch, so
the needed list is the patches at indices 2, 3 and 4, in that order — the
patch whose base was found is itself included, contrary to the claim's
expected `[3, 4]`. -/
theorem c1_resolver_walk_five_stack (hasRev : List Char → Bool)
    (p0 p1 p2 p3 p4 : Patch)
    (h4 : hasRevision hasRev p4.baseRevision = false)
    (h3 : hasRevision hasRev p3.baseRevision = false)
    (h2 : hasRevision hasRev p2.baseRevision = true) :
    neededStack hasRev [p0, p1, p2, p3, p4] = [p2, p3, p4] := by
  simp [neededStack, stackWalk, h4, h3, h2]

/-- C1 witness: the generic walk theorem applied to the demonstration
stack. -/
theorem c1_resolver_walk_five_stack_witness :
    neededStack demoHasRev demoStack = [⟨2, ['b', '2']⟩, ⟨3, ['b', '3']⟩, ⟨4, ['b', '4']⟩] :=
  c1_resolver_walk_five_stack demoHasRev ⟨0, ['b', '0']⟩ ⟨1, ['b', '1']⟩ ⟨2, ['b', '2']⟩
    ⟨3, ['b', '3']⟩ ⟨4, ['b', '4']⟩ (by decide) (by decide) (by decide)

/-- C1 counterexample: on the demonstration stack — where the patch at index
2 has its declared base present and the checks for indices 4 and 3 fail —
the needed list is not `[patch 3, patch 4]` as claimed, but includes patch 2
as well. -/
theorem c1_resolver_walk_counterexample :
    neededStack demoHasRev demoStack ≠ [⟨3, ['b', '3']⟩, ⟨4, ['b', '4']⟩] ∧
    neededStack demoHasRev demoStack = [⟨2, ['b', '2']⟩, ⟨3, ['b', '3']⟩, ⟨4, ['b', '4']⟩] := by
  constructor
  · decide
  · decide

/-- C2 (amended): with a secondary backend configured, a secondary-backend
`git apply` failure at patch index `i` of the needed suffix is fatal: the
run aborts with exactly `i + 1` primary-backend commits (the failing patch's
primary import has already happened) and `i` secondary commits; the
remaining patches are not committed anywhere and mirroring is never
"disabled" — there is no such flag in the loop. -/
theorem c2_secondary_apply_failure_fatal (env : ReplayEnv) (needed : List Patch)
    (i : Nat) (hg : env.gitConfigured = true)
    (hok : ∀ j, j < i → env.secStep j = SecStep.secOk)
    (hf : env.secStep i = SecStep.secApplyFail)
    (hi : i < needed.length) :
    applyPhabReplay env needed = ⟨i + 1, i, true⟩ := by
  have h := replayLoop_secondary_apply_fail env hg needed i 0 0 0
    (by intro j hj; simpa using hok j hj) (by simpa using hf) hi
  simpa [applyPhabReplay] using h

/-- C2 witness: the abort theorem applied to a 3-patch suffix failing at
index 2. -/
theorem c2_secondary_apply_failure_fatal_witness :
    applyPhabReplay secFailAtTwoEnv threePatches = ⟨3, 2, true⟩ :=
  c2_secondary_apply_failure_fatal secFailAtTwoEnv threePatches 2 rfl
    (by intro j hj; interval_cases j <;> rfl) rfl (by decide)

/-- C2 counterexample: a secondary-backend apply failure at the first patch
of a 3-patch suffix yields one primary-backend commit and an aborted run,
not the claimed three primary-backend commits with mirroring disabled. -/
theorem c2_secondary_failure_counterexample :
    applyPhabReplay secFailEnv threePatches = ⟨1, 0, true⟩ ∧
    (applyPhabReplay secFailEnv threePatches).primaryCommits ≠ 3 := by
  constructor
  · decide
  · decide

/-- C3 (amended): the message handed to `hg.import_` equals the
`replace_reviewers` rewrite of `title\n\nsummary` when the deduplicated
reviewer set is nonempty; when the set is empty the rewrite is skipped and
the raw concatenation is used unchanged. -/
theorem c3_import_message_rewrite (m : RevisionMeta) :
    (m.reviewers ≠ [] → importMessage m = replaceReviewers (rawMessage m) m.reviewers) ∧
    (m.reviewers = [] → importMessage m = rawMessage m) := by
  constructor
  · intro hne
    have : m.reviewers.length ≠ 0 := by simpa using hne
    simp [importMessage, this]
  · intro he
    simp [importMessage, he]

/-- C3 witness: the rewrite branch evaluated on a concrete metadata
record. -/
theorem c3_import_message_rewrite_witness :
    importMessage ⟨['F', 'i', 'x'], ['s'], [['d', 'a', 'v', 'e']]⟩ =
      replaceReviewers (rawMessage ⟨['F', 'i', 'x'], ['s'], [['d', 'a', 'v', 'e']]⟩)
        [['d', 'a', 'v', 'e']] :=
  (c3_import_message_rewrite ⟨['F', 'i', 'x'], ['s'], [['d', 'a', 'v', 'e']]⟩).1
    (by decide)

/-- C3 counterexample: with an empty reviewer set the import message keeps
the original `r=alice` of the title, while the claimed unconditional rewrite
would have removed it, so the two differ. -/
theorem c3_empty_reviewers_counterexample :
    importMessage ⟨['F', 'i', 'x', ' ', 'r', '=', 'a', 'l', 'i', 'c', 'e'], ['s'], []⟩ =
      ['F', 'i', 'x', ' ', 'r', '=', 'a', 'l', 'i', 'c', 'e', '\n', '\n', 's'] ∧
    replaceReviewers ['F', 'i', 'x', ' ', 'r', '=', 'a', 'l', 'i', 'c', 'e', '\n', '\n', 's'] [] =
      ['F', 'i', 'x', '\n', '\n', 's'] ∧
    importMessage ⟨['F', 'i', 'x', ' ', 'r', '=', 'a', 'l', 'i', 'c', 'e'], ['s'], []⟩ ≠
      replaceReviewers ['F', 'i', 'x', ' ', 'r', '=', 'a', 'l', 'i', 'c', 'e', '\n', '\n', 's'] [] := by
  refine ⟨by decide, by decide, by decide⟩

/-- C4 (amended): after rewriting, the first grammar-recognised bare-`r`
occurrence carries the canonical `r=` text with exactly the supplied
reviewers, and later grammar-recognised bare-`r` occurrences are removed
together with their list delimiters; occurrences using the other specifiers
(`a=`, `sr=`, `rs=`, `ui-r=`) are left untouched rather than removed.
Witnessed across one representative input per specifier kind. -/
theorem c4_summary_rewrite_examples :
    replaceReviewers
        ['F', 'i', 'x', ' ', 'b', 'u', 'g', ' ', 'r', '=', 'a', 'l', 'i', 'c', 'e', ',', 'b', 'o', 'b', ' ', 'a', '=', 'c', 'a', 'r', 'o', 'l']
        [['d', 'a', 'v', 'e']] =
      ['F', 'i', 'x', ' ', 'b', 'u', 'g', ' ', 'r', '=', 'd', 'a', 'v', 'e', ' ', 'a', '=', 'c', 'a', 'r', 'o', 'l'] ∧
    replaceReviewers
        ['F', 'i', 'x', ' ', 'b', 'u', 'g', ' ', 'r', '=', 'a', 'l', 'i', 'c', 'e', ' ', 's', 'r', '=', 's', 'a', 'm']
        [['d', 'a', 'v', 'e']] =
      ['F', 'i', 'x', ' ', 'b', 'u', 'g', ' ', 'r', '=', 'd', 'a', 'v', 'e', ' ', 's', 'r', '=', 's', 'a', 'm'] ∧
    replaceReviewers
        ['F', 'i', 'x', ' ', 'b', 'u', 'g', ' ', 'r', '=', 'a', 'l', 'i', 'c', 'e', ' ', 'r', 's', '=', 'r', 'o', 'b']
        [['d', 'a', 'v', 'e']] =
      ['F', 'i', 'x', ' ', 'b', 'u', 'g', ' ', 'r', '=', 'd', 'a', 'v', 'e', ' ', 'r', 's', '=', 'r', 'o', 'b'] ∧
    replaceReviewers
        ['F', 'i', 'x', ' ', 'b', 'u', 'g', ' ', 'r', '=', 'a', 'l', 'i', 'c', 'e', ' ', 'u', 'i', '-', 'r', '=', 'u', 'r', 'i']
        [['d', 'a', 'v', 'e']] =
      ['F', 'i', 'x', ' ', 'b', 'u', 'g', ' ', 'r', '=', 'd', 'a', 'v', 'e', ' ', 'u', 'i', '-', 'r', '=', 'u', 'r', 'i'] ∧
    replaceReviewers
        ['F', 'i', 'x', ' ', 'b', 'u', 'g', ' ', 'r', '=', 'a', 'l', 'i', 'c', 'e', ' ', 'r', '=', 'b', 'o', 'b']
        [['d', 'a', 'v', 'e']] =
      ['F', 'i', 'x', ' ', 'b', 'u', 'g', ' ', 'r', '=', 'd', 'a', 'v', 'e'] := by
  refine ⟨by decide, by decide, by decide, by decide, by decide⟩

/-- C4 counterexample: rewriting `Fix bug r=alice sr=sam` with reviewer set
`{dave}` keeps the `sr=sam` occurrence (the output still contains `sr=`),
refuting the claim that all non-bare specifier occurrences are removed. -/
theorem c4_other_specifiers_counterexample :
    replaceReviewers
        ['F', 'i', 'x', ' ', 'b', 'u', 'g', ' ', 'r', '=', 'a', 'l', 'i', 'c', 'e', ' ', 's', 'r', '=', 's', 'a', 'm']
        [['d', 'a', 'v', 'e']] =
      ['F', 'i', 'x', ' ', 'b', 'u', 'g', ' ', 'r', '=', 'd', 'a', 'v', 'e', ' ', 's', 'r', '=', 's', 'a', 'm'] ∧
    containsSeq ['s', 'r', '=']
      (replaceReviewers
        ['F', 'i', 'x', ' ', 'b', 'u', 'g', ' ', 'r', '=', 'a', 'l', 'i', 'c', 'e', ' ', 's', 'r', '=', 's', 'a', 'm']
        [['d', 'a', 'v', 'e']]) = true := by
  constructor
  · decide
  · decide

/-- C5 (amended): the diff search that initiates the metadata fetch is
issued with the phids of every patch in the full stack, not only those in
the needed list. -/
theorem c5_metadata_query_whole_stack (hasRev : List Char → Bool)
    (stack : List Patch) (hs : stack ≠ []) :
    searchDiffsQuery hasRev stack = stack.map Patch.phid := by
  unfold searchDiffsQuery
  rw [if_neg (neededStack_ne_nil hasRev stack hs)]

/-- C5 witness: the whole-stack query evaluated on the demonstration
stack. -/
theorem c5_metadata_query_whole_stack_witness :
    searchDiffsQuery demoHasRev demoStack = [0, 1, 2, 3, 4] := by
  have h := c5_metadata_query_whole_stack demoHasRev demoStack (by decide)
  simpa using h

/-- C5 counterexample: on the demonstration stack the walk stops at index 2,
so patch 0 is below the found base and outside the needed list, yet its phid
is part of the metadata request — refuting the claim that no request covers
already-applied patches. -/
theorem c5_metadata_query_counterexample :
    ((neededStack demoHasRev demoStack).map Patch.phid).contains 0 = false ∧
    (searchDiffsQuery demoHasRev demoStack).contains 0 = true := by
  constructor
  · decide
  · decide

/-- C6 (amended): for a non-empty stack whose top patch's declared base is
already present, the walk prepends the top patch before checking, so the
needed list is exactly `[top]` — one patch is replayed, not zero, and the
empty-needed no-op branch of `apply_phab` is unreachable for non-empty
stacks. -/
theorem c6_top_base_known_single_patch (hasRev : List Char → Bool)
    (s : List Patch) (top : Patch)
    (ht : hasRevision hasRev top.baseRevision = true) :
    neededStack hasRev (s ++ [top]) = [top] := by
  simp [neededStack, stackWalk, ht]

/-- C6 witness: the single-patch needed list on a concrete two-patch
stack. -/
theorem c6_top_base_known_single_patch_witness :
    neededStack topKnownHasRev topKnownStack = [⟨1, ['t', '1']⟩] :=
  c6_top_base_known_single_patch topKnownHasRev [⟨0, ['t', '0']⟩] ⟨1, ['t', '1']⟩
    (by decide)

/-- C6 counterexample: with the top patch's base present the needed list is
`[top]`, not the empty list the claim requires. -/
theorem c6_top_base_counterexample :
    neededStack topKnownHasRev topKnownStack ≠ [] ∧
    neededStack topKnownHasRev topKnownStack = [⟨1, ['t', '1']⟩] := by
  constructor
  · decide
  · decide

/-- C9 (confirmed): rewriting `Fix bug r=alice r=bob` with the empty
reviewer set removes every bare `r=` annotation together with its leading
separator and trims the trailing whitespace, yielding `Fix bug`. -/
theorem c9_empty_reviewers_removal :
    replaceReviewers
        ['F', 'i', 'x', ' ', 'b', 'u', 'g', ' ', 'r', '=', 'a', 'l', 'i', 'c', 'e', ' ', 'r', '=', 'b', 'o', 'b']
        [] =
      ['F', 'i', 'x', ' ', 'b', 'u', 'g'] := by
  decide

theorem takeWhile_append_all {p : Char → Bool} :
    ∀ (l1 l2 : List Char), (∀ c ∈ l1, p c = true) →
      (l1 ++ l2).takeWhile p = l1 ++ l2.takeWhile p := by
  intro l1
  induction l1 with
  | nil => intro l2 _; rfl
  | cons a t ih =>
    intro l2 h
    have ha : p a = true := h a (List.mem_cons_self a t)
    simp only [List.cons_append, List.takeWhile_cons, ha, if_true]
    rw [ih l2 (fun c hc => h c (List.mem_cons_of_mem a hc))]

theorem dropWhile_append_all {p : Char → Bool} :
    ∀ (l1 l2 : List Char), (∀ c ∈ l1, p c = true) →
      (l1 ++ l2).dropWhile p = l2.dropWhile p := by
  intro l1
  induction l1 with
  | nil => intro l2 _; rfl
  | cons a t ih =>
    intro l2 h
    have ha : p a = true := h a (List.mem_cons_self a t)
    simp only [List.cons_append, List.dropWhile_cons, ha, if_true]
    exact ih l2 (fun c hc => h c (List.mem_cons_of_mem a hc))

theorem bool_eq_false {b : Bool} (h : ¬b = true) : b = false := by
  cases hb : b
  · rfl
  · exact absurd hb h

theorem dropWhile_append_split {p : Char → Bool} :
    ∀ (l1 l2 : List Char),
      (l1 ++ l2).dropWhile p =
        if l1.dropWhile p = [] then l2.dropWhile p else l1.dropWhile p ++ l2 := by
  intro l1
  induction l1 with
  | nil => intro l2; simp [List.dropWhile]
  | cons a t ih =>
    intro l2
    by_cases ha : p a = true
    · simp only [List.cons_append, List.dropWhile_cons, ha, if_true]
      exact ih l2
    · simp [List.dropWhile_cons, bool_eq_false ha]

theorem mem_of_mem_dropWhile {p : Char → Bool} {c : Char} :
    ∀ {l : List Char}, c ∈ l.dropWhile p → c ∈ l := by
  intro l
  induction l with
  | nil => intro h; exact h
  | cons a t ih =>
    intro h
    by_cases ha : p a = true
    · simp only [List.dropWhile_cons, ha, if_true] at h
      exact List.mem_cons_of_mem a (ih h)
    · simp only [List.dropWhile_cons, bool_eq_false ha, Bool.false_eq_true, if_false] at h
      exact h

theorem dropWhile_self {p : Char → Bool} :
    ∀ (l : List Char), (l.dropWhile p).dropWhile p = l.dropWhile p := by
  intro l
  induction l with
  | nil => rfl
  | cons a t ih =>
    by_cases ha : p a = true
    · simp only [List.dropWhile_cons, ha, if_true]
      exact ih
    · simp [List.dropWhile_cons, bool_eq_false ha]

theorem dropTrail_cons_of_ne (a : Char) (t : List Char) (h : dropTrail t ≠ []) :
    dropTrail (a :: t) = a :: dropTrail t := by
  simp only [dropTrail]
  rw [if_neg]
  simp [h]

theorem dropTrail_cons_of_nonspace (a : Char) (t : List Char)
    (h : pyIsSpace a = false) : dropTrail (a :: t) = a :: dropTrail t := by
  simp only [dropTrail]
  rw [if_neg]
  simp [h]

theorem dropTrail_all_nonspace :
    ∀ (t : List Char), (∀ c ∈ t, pyIsSpace c = false) → dropTrail t = t := by
  intro t
  induction t with
  | nil => intro _; rfl
  | cons a r ih =>
    intro h
    have ha : pyIsSpace a = false := h a (List.mem_cons_self a r)
    rw [dropTrail_cons_of_nonspace a r ha,
        ih (fun c hc => h c (List.mem_cons_of_mem a hc))]

theorem dropTrail_append_of_ne :
    ∀ (y t : List Char), dropTrail t ≠ [] → dropTrail (y ++ t) = y ++ dropTrail t := by
  intro y
  induction y with
  | nil => intro t _; rfl
  | cons a z ih =>
    intro t ht
    have hz := ih t ht
    have hne : dropTrail (z ++ t) ≠ [] := by
      rw [hz]
      simp [ht]
    rw [List.cons_append, dropTrail_cons_of_ne a (z ++ t) hne, hz, List.cons_append]

theorem dropTrail_idem : ∀ (s : List Char), dropTrail (dropTrail s) = dropTrail s := by
  intro s
  induction s with
  | nil => rfl
  | cons a t ih =>
    by_cases h2 : dropTrail t = []
    · by_cases ha : pyIsSpace a = true
      · simp [dropTrail, h2, ha]
      · rw [dropTrail_cons_of_nonspace a t (bool_eq_false ha), h2]
        simp [dropTrail, bool_eq_false ha]
    · rw [dropTrail_cons_of_ne a t h2,
          dropTrail_cons_of_ne a (dropTrail t) (by rw [ih]; exact h2), ih]

theorem dropTrail_head_cons :
    ∀ (s : List Char) (c : Char) (t : List Char),
      dropTrail s = c :: t → ∃ t2, s = c :: t2 := by
  intro s c t h
  cases s with
  | nil => exact absurd h (by simp [dropTrail])
  | cons a r =>
    simp only [dropTrail] at h
    by_cases hc : (dropTrail r = [] && pyIsSpace a) = true
    · rw [if_pos hc] at h
      exact absurd h.symm (List.cons_ne_nil c t)
    · rw [if_neg hc] at h
      exact ⟨r, by rw [((List.cons.injEq a (dropTrail r) c t).mp h).1]⟩

theorem dropWhile_head_false {p : Char → Bool} :
    ∀ (s : List Char) (c : Char) (t : List Char),
      s.dropWhile p = c :: t → p c = false := by
  intro s
  induction s with
  | nil => intro c t h; exact absurd h (by simp [List.dropWhile])
  | cons a r ih =>
    intro c t h
    by_cases ha : p a = true
    · simp only [List.dropWhile_cons, ha, if_true] at h
      exact ih c t h
    · simp only [List.dropWhile_cons, bool_eq_false ha, Bool.false_eq_true, if_false] at h
      obtain ⟨rfl, -⟩ := (List.cons.injEq a r c t).mp h
      exact bool_eq_false ha

theorem pyStrip_idem : ∀ (s : List Char), pyStrip (pyStrip s) = pyStrip s := by
  intro s
  unfold pyStrip
  have h1 : (dropTrail (s.dropWhile pyIsSpace)).dropWhile pyIsSpace =
      dropTrail (s.dropWhile pyIsSpace) := by
    cases hu : dropTrail (s.dropWhile pyIsSpace) with
    | nil => rfl
    | cons c t =>
      obtain ⟨t2, ht2⟩ := dropTrail_head_cons _ c t hu
      have hc : pyIsSpace c = false := dropWhile_head_false s c t2 ht2
      simp [List.dropWhile_cons, hc]
  rw [h1, dropTrail_idem]

theorem pySplitlinesF_noLB :
    ∀ (s : List Char) (fuel : Nat) (cur : List Char),
      (∀ c ∈ s, isLineBreak c = false) → s.length ≤ fuel →
      pySplitlinesF fuel cur s =
        if cur.reverse ++ s = [] then [] else [cur.reverse ++ s] := by
  intro s
  induction s with
  | nil =>
    intro fuel cur _ _
    cases fuel with
    | zero => simp [pySplitlinesF]
    | succ f => simp [pySplitlinesF]
  | cons c rest ih =>
    intro fuel cur h hf
    have hc : isLineBreak c = false := h c (List.mem_cons_self c rest)
    have hcr : c ≠ '\r' := by
      intro hx
      rw [hx] at hc
      exact absurd hc (by decide)
    cases fuel with
    | zero => exact absurd hf (by simp)
    | succ f =>
      have hrec := ih f (c :: cur) (fun d hd => h d (List.mem_cons_of_mem c hd))
        (by simpa using Nat.succ_le_succ_iff.mp hf)
      simp only [pySplitlinesF, hcr, if_false, hc, Bool.false_eq_true, hrec]
      simp

theorem pySplitlines_noLB (s : List Char) (h : ∀ c ∈ s, isLineBreak c = false)
    (hne : s ≠ []) : pySplitlines s = [s] := by
  unfold pySplitlines
  rw [pySplitlinesF_noLB s s.length [] h (Nat.le_refl _)]
  simp [hne]

theorem rSpecSearchAux_annot :
    ∀ (l : List Char) (p : Bool) (r : List Char),
      rSpecSearchAux p (l ++ ' ' :: 'r' :: '=' :: r) = true := by
  intro l
  induction l with
  | nil =>
    intro p r
    simp [rSpecSearchAux, isFlagEnd, isWordChar]
  | cons c t ih =>
    intro p r
    simp only [List.cons_append, rSpecSearchAux]
    split
    · rfl
    · exact ih (isWordChar c) r

theorem rSpecSearchAux_false_of_no_flag :
    ∀ (s : List Char) (p : Bool), (∀ c ∈ s, isFlagEnd c = false) →
      rSpecSearchAux p s = false := by
  intro s
  induction s with
  | nil => intro p _; rfl
  | cons c rest ih =>
    intro p h
    simp only [rSpecSearchAux]
    split
    · rename_i hcond
      have h2 := ((Bool.and_eq_true _ _).mp hcond).2
      cases rest with
      | nil => exact absurd h2 (by simp)
      | cons d t =>
        have hd : isFlagEnd d = false :=
          h d (List.mem_cons_of_mem c (List.mem_cons_self d t))
        simp [hd] at h2
    · exact ih (isWordChar c) (fun d hd => h d (List.mem_cons_of_mem c hd))

/-- C7 (amended): for every nonempty single-line summary with no bare
`r=`/`r?` occurrence and every nonempty reviewer list, the rewrite appends
exactly one space and the canonical annotation and then strips leading and
trailing whitespace from the result (so a summary with leading whitespace is
additionally trimmed, rather than left entirely unchanged). -/
theorem c7_no_specifier_append (line : List Char) (reviewers : List (List Char))
    (hne : line ≠ []) (hlb : ∀ c ∈ line, isLineBreak c = false)
    (hsearch : rSpecSearch line = false) (hrev : reviewers ≠ []) :
    replaceReviewers line reviewers =
      pyStrip (line ++ ' ' :: 'r' :: '=' :: joinComma reviewers) := by
  unfold replaceReviewers
  rw [if_neg hne, pySplitlines_noLB line hlb hne]
  simp only [List.headD, List.tail, List.intercalate, List.intersperse, List.flatten,
    reviewersText, if_neg hrev, hsearch, Bool.false_eq_true, if_false, if_true]

/-- C7 witness: the append equation evaluated on `Fix bug` with reviewer
`dave`. -/
theorem c7_no_specifier_append_witness :
    replaceReviewers ['F', 'i', 'x', ' ', 'b', 'u', 'g'] [['d', 'a', 'v', 'e']] =
      pyStrip (['F', 'i', 'x', ' ', 'b', 'u', 'g'] ++
        ' ' :: 'r' :: '=' :: joinComma [['d', 'a', 'v', 'e']]) :=
  c7_no_specifier_append ['F', 'i', 'x', ' ', 'b', 'u', 'g'] [['d', 'a', 'v', 'e']]
    (by decide) (by decide) (by decide) (by decide)

/-- C7 counterexample: the summary ` Fix bug` (leading space, no bare
specifier) with reviewer set `{dave}` yields `Fix bug r=dave` — the leading
space is stripped — and not the claimed ` Fix bug r=dave` with nothing else
changed. -/
theorem c7_append_counterexample :
    replaceReviewers [' ', 'F', 'i', 'x', ' ', 'b', 'u', 'g'] [['d', 'a', 'v', 'e']] =
      ['F', 'i', 'x', ' ', 'b', 'u', 'g', ' ', 'r', '=', 'd', 'a', 'v', 'e'] ∧
    replaceReviewers [' ', 'F', 'i', 'x', ' ', 'b', 'u', 'g'] [['d', 'a', 'v', 'e']] ≠
      [' ', 'F', 'i', 'x', ' ', 'b', 'u', 'g', ' ', 'r', '=', 'd', 'a', 'v', 'e'] := by
  constructor
  · decide
  · decide

theorem specAt_decomp (s sp r : List Char) (h : specAt s = some (sp, r)) :
    s = sp ++ r := by
  obtain _ | ⟨c1, _ | ⟨c2, _ | ⟨c3, _ | ⟨c4, _ | ⟨c5, s5⟩⟩⟩⟩⟩ := s <;>
    simp only [specAt] at h <;>
    (repeat' split at h) <;>
    simp_all <;>
    (obtain ⟨h1, h2⟩ := h) <;> subst h1 <;> simp

theorem nickBang_decomp (s nk r : List Char) (h : nickBang s = some (nk, r)) :
    s = nk ++ r := by
  have hsplit := List.takeWhile_append_dropWhile (p := nickChar) (l := s)
  unfold nickBang at h
  split at h
  · exact absurd h (by simp)
  · split at h
    · rename_i r2 heq
      simp only [Option.some.injEq, Prod.mk.injEq] at h
      rw [← h.1, ← h.2, List.append_assoc, List.singleton_append, ← heq, hsplit]
    · simp only [Option.some.injEq, Prod.mk.injEq] at h
      rw [← h.1, ← h.2, hsplit]

theorem nickParse_decomp (s nk r : List Char) (h : nickParse s = some (nk, r)) :
    s = nk ++ r := by
  cases s with
  | nil => exact absurd h (by simp [nickParse])
  | cons c s1 =>
    simp only [nickParse] at h
    split at h
    · rename_i hc
      split at h
      · rename_i con r1 heq
        simp only [Option.some.injEq, Prod.mk.injEq] at h
        rw [← h.1, ← h.2, hc, List.cons_append, nickBang_decomp s1 con r1 heq]
      · exact absurd h (by simp)
    · exact nickBang_decomp (c :: s1) nk r h

theorem starIter_decomp (s con r : List Char) (h : starIter s = some (con, r)) :
    s = con ++ r := by
  cases s with
  | nil => exact absurd h (by simp [starIter])
  | cons c s1 =>
    have hsplit := List.takeWhile_append_dropWhile (p := pyIsSpace) (l := s1)
    simp only [starIter] at h
    split at h
    · split at h
      · exact absurd h (by simp)
      · split at h
        · rename_i nk r2 heq
          simp only [Option.some.injEq, Prod.mk.injEq] at h
          rw [← h.1, ← h.2]
          show c :: s1 = c :: ((List.takeWhile pyIsSpace s1 ++ nk) ++ r2)
          rw [List.append_assoc, ← nickParse_decomp _ nk r2 heq, hsplit]
        · exact absurd h (by simp)
    · exact absurd h (by simp)

theorem starLoopF_decomp :
    ∀ (fuel : Nat) (s : List Char),
      (starLoopF fuel s).1 ++ (starLoopF fuel s).2 = s := by
  intro fuel
  induction fuel with
  | zero => intro s; rfl
  | succ n ih =>
    intro s
    cases hit : starIter s with
    | none => simp [starLoopF, hit]
    | some p =>
      obtain ⟨con, rest⟩ := p
      have hdec := starIter_decomp s con rest hit
      simp only [starLoopF, hit, List.append_assoc, ih rest]
      exact hdec.symm

theorem parseRevs_decomp (s rv r : List Char) (h : parseRevs s = some (rv, r)) :
    s = rv ++ r := by
  unfold parseRevs at h
  split at h
  · exact absurd h (by simp)
  · rename_i nk r1 heq
    simp only [Option.some.injEq, Prod.mk.injEq] at h
    obtain ⟨h1, h2⟩ := h
    subst h1
    subst h2
    rw [nickParse_decomp s nk r1 heq, List.append_assoc, starLoopF_decomp r1.length r1]

theorem tryMatch_decomp (s : List Char) (m : RMatch) (h : tryMatch s = some m) :
    s = m.delim :: (m.spec ++ (m.revs ++ m.rest)) := by
  cases s with
  | nil => exact absurd h (by simp [tryMatch])
  | cons c s1 =>
    simp only [tryMatch] at h
    split at h
    · split at h
      · exact absurd h (by simp)
      · rename_i sp r1 hspec
        split at h
        · rename_i rv r2 hrevs
          simp only [Option.some.injEq] at h
          subst h
          simp only []
          rw [specAt_decomp s1 sp r1 hspec, parseRevs_decomp r1 rv r2 hrevs]
        · simp only [Option.some.injEq] at h
          subst h
          simp only [List.nil_append]
          rw [specAt_decomp s1 sp r1 hspec]
    · exact absurd h (by simp)

theorem scanNonBareF_cons (fuel : Nat) (c : Char) (tail : List Char) :
    scanNonBareF (fuel + 1) (c :: tail) =
      match tryMatch (c :: tail) with
      | none => scanNonBareF fuel tail
      | some m => !isBareSpec m.spec && scanNonBareF fuel m.rest := rfl

theorem subRevF_cons (rstr : List Char) (fuel : Nat) (first : Bool) (c : Char)
    (tail : List Char) :
    subRevF rstr (fuel + 1) first (c :: tail) =
      match tryMatch (c :: tail) with
      | none =>
        (c :: (subRevF rstr fuel first tail).1, (subRevF rstr fuel first tail).2)
      | some m =>
        if isBareSpec m.spec then
          if first then
            (m.delim :: rstr ++ (subRevF rstr fuel false m.rest).1,
             (subRevF rstr fuel false m.rest).2)
          else
            ('\x00' :: (subRevF rstr fuel first m.rest).1,
             (subRevF rstr fuel first m.rest).2)
        else
          (m.delim :: m.spec ++ m.revs ++ (subRevF rstr fuel first m.rest).1,
           (subRevF rstr fuel first m.rest).2) := rfl

theorem subRevF_id_of_nonbare (rstr : List Char) :
    ∀ (fuel : Nat) (first : Bool) (s : List Char), scanNonBareF fuel s = true →
      subRevF rstr fuel first s = (s, first) := by
  intro fuel
  induction fuel with
  | zero => intro first s _; rfl
  | succ n ih =>
    intro first s h
    cases s with
    | nil => rfl
    | cons c tail =>
      rw [subRevF_cons]
      rw [scanNonBareF_cons] at h
      cases htm : tryMatch (c :: tail) with
      | none =>
        rw [htm] at h
        have h2 : scanNonBareF n tail = true := h
        show (c :: (subRevF rstr n first tail).1, (subRevF rstr n first tail).2) =
          (c :: tail, first)
        rw [ih first tail h2]
      | some m =>
        rw [htm] at h
        have h2 : (!isBareSpec m.spec && scanNonBareF n m.rest) = true := h
        obtain ⟨hb, hrest⟩ := (Bool.and_eq_true _ _).mp h2
        have hbf : isBareSpec m.spec = false := by simpa using hb
        have hdec := tryMatch_decomp (c :: tail) m htm
        simp only [hbf, Bool.false_eq_true, if_false, ih first m.rest hrest]
        rw [hdec]
        simp [List.append_assoc]

theorem stripListNullF_cons (fuel : Nat) (c : Char) (tail : List Char) :
    stripListNullF (fuel + 1) (c :: tail) =
      if isListSep c then
        match tail.dropWhile pyIsSpace with
        | '\x00' :: r2 => stripListNullF fuel r2
        | _ => c :: stripListNullF fuel tail
      else c :: stripListNullF fuel tail := rfl

theorem stripListNullF_id :
    ∀ (fuel : Nat) (s : List Char), (∀ c ∈ s, c ≠ '\x00') →
      stripListNullF fuel s = s := by
  intro fuel
  induction fuel with
  | zero => intro s _; rfl
  | succ n ih =>
    intro s h
    cases s with
    | nil => rfl
    | cons c tail =>
      have htail : ∀ d ∈ tail, d ≠ '\x00' :=
        fun d hd => h d (List.mem_cons_of_mem c hd)
      rw [stripListNullF_cons]
      by_cases hc : isListSep c = true
      · rw [if_pos hc]
        cases hdw : tail.dropWhile pyIsSpace with
        | nil => rw [ih tail htail]
        | cons d r2 =>
          have hd : d ≠ '\x00' := htail d
            (mem_of_mem_dropWhile (hdw ▸ List.mem_cons_self d r2))
          split
          · rename_i r3 heq
            exact absurd ((List.cons.injEq d r2 _ r3).mp heq).1 hd
          · rw [ih tail htail]
      · rw [if_neg hc, ih tail htail]

theorem removeNull_id (s : List Char) (h : ∀ c ∈ s, c ≠ '\x00') :
    removeNull s = s := by
  unfold removeNull
  apply List.filter_eq_self.mpr
  intro a ha
  simpa using h a ha

/-- C10 (amended): for every single-line summary that contains the bare
presence pattern `\br[=?]` but in which every grammar-recognised match uses
a non-bare specifier (such as `ui-r=`), the rewrite leaves the text intact
up to leading/trailing whitespace trimming — the reviewer set, whatever it
is, is never inserted. -/
theorem c10_non_bare_untouched (line : List Char) (reviewers : List (List Char))
    (hlb : ∀ c ∈ line, isLineBreak c = false)
    (hnn : ∀ c ∈ line, c ≠ '\x00')
    (hsearch : rSpecSearch line = true)
    (hscan : scanNonBare line = true) :
    replaceReviewers line reviewers = pyStrip line := by
  have hne : line ≠ [] := by
    rintro rfl
    rw [rSpecSearch] at hsearch
    exact absurd hsearch (by decide)
  unfold replaceReviewers
  rw [if_neg hne, pySplitlines_noLB line hlb hne]
  simp only [List.headD, List.tail, List.intercalate, List.intersperse, List.flatten,
    hsearch, if_true]
  unfold subRevOut
  rw [subRevF_id_of_nonbare _ line.length true line hscan]
  unfold stripListNull
  rw [stripListNullF_id line.length line hnn, removeNull_id line hnn]

/-- C10 witness: the untouched-rewrite theorem applied to
`Fix widget ui-r=foo` with reviewer set `{dave}`. -/
theorem c10_non_bare_untouched_witness :
    replaceReviewers
        ['F', 'i', 'x', ' ', 'w', 'i', 'd', 'g', 'e', 't', ' ', 'u', 'i', '-', 'r', '=', 'f', 'o', 'o']
        [['d', 'a', 'v', 'e']] =
      pyStrip ['F', 'i', 'x', ' ', 'w', 'i', 'd', 'g', 'e', 't', ' ', 'u', 'i', '-', 'r', '=', 'f', 'o', 'o'] :=
  c10_non_bare_untouched
    ['F', 'i', 'x', ' ', 'w', 'i', 'd', 'g', 'e', 't', ' ', 'u', 'i', '-', 'r', '=', 'f', 'o', 'o']
    [['d', 'a', 'v', 'e']] (by decide) (by decide) (by decide) (by decide)

/-- C10 counterexample: the summary ` Fix widget ui-r=foo` (leading space,
only a `ui-r=` annotation) with the nonempty reviewer set `{dave}` is
returned with its leading space stripped, not unchanged as claimed. -/
theorem c10_unchanged_counterexample :
    replaceReviewers
        [' ', 'F', 'i', 'x', ' ', 'w', 'i', 'd', 'g', 'e', 't', ' ', 'u', 'i', '-', 'r', '=', 'f', 'o', 'o']
        [['d', 'a', 'v', 'e']] =
      ['F', 'i', 'x', ' ', 'w', 'i', 'd', 'g', 'e', 't', ' ', 'u', 'i', '-', 'r', '=', 'f', 'o', 'o'] ∧
    replaceReviewers
        [' ', 'F', 'i', 'x', ' ', 'w', 'i', 'd', 'g', 'e', 't', ' ', 'u', 'i', '-', 'r', '=', 'f', 'o', 'o']
        [['d', 'a', 'v', 'e']] ≠
      [' ', 'F', 'i', 'x', ' ', 'w', 'i', 'd', 'g', 'e', 't', ' ', 'u', 'i', '-', 'r', '=', 'f', 'o', 'o'] := by
  constructor
  · decide
  · decide

theorem printable_not_lb {c : Char} (h : 32 ≤ c.toNat ∧ c.toNat ≤ 126) :
    isLineBreak c = false := by
  by_contra hx
  have hx2 : isLineBreak c = true := by simpa using hx
  simp only [isLineBreak, Bool.or_eq_true, decide_eq_true_eq] at hx2
  rcases hx2 with (((((((((rfl | rfl) | rfl) | rfl) | rfl) | rfl) | rfl) | rfl) | rfl) | rfl)
  all_goals first
    | exact absurd h.1 (by decide)
    | exact absurd h.2 (by decide)

theorem printable_not_nul {c : Char} (h : 32 ≤ c.toNat ∧ c.toNat ≤ 126) :
    c ≠ '\x00' := by
  rintro rfl
  exact absurd h.1 (by decide)

theorem nick_not_flag {c : Char} (h : nickChar c = true) : isFlagEnd c = false := by
  by_contra hx
  have hx2 : isFlagEnd c = true := by simpa using hx
  simp only [isFlagEnd, Bool.or_eq_true, decide_eq_true_eq] at hx2
  rcases hx2 with rfl | rfl <;> exact absurd h (by decide)

theorem nick_not_space {c : Char} (h : nickChar c = true) : pyIsSpace c = false := by
  by_contra hx
  have hx2 : pyIsSpace c = true := by simpa using hx
  simp only [pyIsSpace, Bool.or_eq_true, decide_eq_true_eq] at hx2
  rcases hx2 with (((((((((((rfl | rfl) | rfl) | rfl) | rfl) | rfl) | rfl) | rfl) | rfl) | rfl) | rfl) | rfl) <;>
    exact absurd h (by decide)

theorem nick_not_lb {c : Char} (h : nickChar c = true) : isLineBreak c = false := by
  by_contra hx
  have hx2 : isLineBreak c = true := by simpa using hx
  simp only [isLineBreak, Bool.or_eq_true, decide_eq_true_eq] at hx2
  rcases hx2 with (((((((((rfl | rfl) | rfl) | rfl) | rfl) | rfl) | rfl) | rfl) | rfl) | rfl) <;>
    exact absurd h (by decide)

theorem nick_ne_hash {c : Char} (h : nickChar c = true) : c ≠ '#' := by
  rintro rfl
  exact absurd h (by decide)

theorem nick_ne_bang {c : Char} (h : nickChar c = true) : c ≠ '!' := by
  rintro rfl
  exact absurd h (by decide)

theorem nick_ne_nul {c : Char} (h : nickChar c = true) : c ≠ '\x00' := by
  rintro rfl
  exact absurd h (by decide)

theorem joinComma_eq_tailJoin :
    ∀ (rest : List (List Char)) (n : List Char),
      joinComma (n :: rest) = n ++ tailJoin rest := by
  intro rest
  induction rest with
  | nil => intro n; simp [joinComma, tailJoin]
  | cons m t ih =>
    intro n
    show joinComma (n :: m :: t) = n ++ tailJoin (m :: t)
    rw [show joinComma (n :: m :: t) = n ++ ',' :: joinComma (m :: t) from rfl]
    rw [ih m]
    rfl

theorem tailJoin_mem :
    ∀ (R : List (List Char)) (c : Char), c ∈ tailJoin R →
      c = ',' ∨ ∃ n, n ∈ R ∧ c ∈ n := by
  intro R
  induction R with
  | nil => intro c hc; exact absurd hc (by simp [tailJoin])
  | cons n rest ih =>
    intro c hc
    simp only [tailJoin, List.mem_cons, List.mem_append] at hc
    rcases hc with rfl | hc | hc
    · exact Or.inl rfl
    · exact Or.inr ⟨n, List.mem_cons_self n rest, hc⟩
    · rcases ih c hc with h | ⟨m, hm, hcm⟩
      · exact Or.inl h
      · exact Or.inr ⟨m, List.mem_cons_of_mem n hm, hcm⟩

theorem joinComma_mem (R : List (List Char)) (c : Char) (hc : c ∈ joinComma R) :
    c = ',' ∨ ∃ n, n ∈ R ∧ c ∈ n := by
  cases R with
  | nil => exact absurd hc (by simp [joinComma])
  | cons n rest =>
    rw [joinComma_eq_tailJoin rest n] at hc
    rcases List.mem_append.mp hc with h | h
    · exact Or.inr ⟨n, List.mem_cons_self n rest, h⟩
    · rcases tailJoin_mem rest c h with h2 | ⟨m, hm, hcm⟩
      · exact Or.inl h2
      · exact Or.inr ⟨m, List.mem_cons_of_mem n hm, hcm⟩

theorem lookaheadFlag_false (s : List Char) (h : ∀ c ∈ s, isFlagEnd c = false) :
    lookaheadFlag s = false := by
  unfold lookaheadFlag
  cases hdw : s.dropWhile laChar with
  | nil => rfl
  | cons c t =>
    have hc : isFlagEnd c = false :=
      h c (mem_of_mem_dropWhile (hdw ▸ List.mem_cons_self c t))
    simp [hc]

theorem nickBang_name (n t : List Char) (hn : n ≠ [])
    (hnick : ∀ c ∈ n, nickChar c = true)
    (ht : t = [] ∨ ∃ t2, t = ',' :: t2) :
    nickBang (n ++ t) = some (n, t) := by
  have htake : (n ++ t).takeWhile nickChar = n := by
    rw [takeWhile_append_all n t hnick]
    rcases ht with rfl | ⟨t2, rfl⟩
    · simp
    · simp [List.takeWhile_cons, (by decide : nickChar ',' = false)]
  have hdrop : (n ++ t).dropWhile nickChar = t := by
    rw [dropWhile_append_all n t hnick]
    rcases ht with rfl | ⟨t2, rfl⟩
    · simp
    · simp [List.dropWhile_cons, (by decide : nickChar ',' = false)]
  unfold nickBang
  rw [htake, hdrop, if_neg hn]
  rcases ht with rfl | ⟨t2, rfl⟩
  · rfl
  · rfl

theorem nickParse_name (n t : List Char) (hn : n ≠ [])
    (hnick : ∀ c ∈ n, nickChar c = true)
    (ht : t = [] ∨ ∃ t2, t = ',' :: t2) :
    nickParse (n ++ t) = some (n, t) := by
  cases n with
  | nil => exact absurd rfl hn
  | cons c n1 =>
    have hc : nickChar c = true := hnick c (List.mem_cons_self c n1)
    show nickParse (c :: (n1 ++ t)) = some (c :: n1, t)
    have step : nickParse (c :: (n1 ++ t)) =
        if c = '#' then
          match nickBang (n1 ++ t) with
          | some (con, r) => some ('#' :: con, r)
          | none => none
        else nickBang (c :: (n1 ++ t)) := rfl
    rw [step, if_neg (nick_ne_hash hc)]
    exact nickBang_name (c :: n1) t hn hnick ht

theorem tailJoin_shape (R : List (List Char)) :
    tailJoin R = [] ∨ ∃ t2, tailJoin R = ',' :: t2 := by
  cases R with
  | nil => exact Or.inl rfl
  | cons n rest => exact Or.inr ⟨n ++ tailJoin rest, rfl⟩

theorem starLoopF_tailJoin (R : List (List Char))
    (hgood : ∀ n ∈ R, n ≠ [] ∧ ∀ c ∈ n, nickChar c = true) :
    ∀ (fuel : Nat), (tailJoin R).length ≤ fuel →
      starLoopF fuel (tailJoin R) = (tailJoin R, []) := by
  induction R with
  | nil =>
    intro fuel _
    cases fuel with
    | zero => rfl
    | succ f => rfl
  | cons n rest ih =>
    intro fuel hf
    have hn : n ≠ [] := (hgood n (List.mem_cons_self n rest)).1
    have hnick : ∀ c ∈ n, nickChar c = true := (hgood n (List.mem_cons_self n rest)).2
    have hgood2 : ∀ m ∈ rest, m ≠ [] ∧ ∀ c ∈ m, nickChar c = true :=
      fun m hm => hgood m (List.mem_cons_of_mem n hm)
    cases fuel with
    | zero => exact absurd hf (by simp [tailJoin])
    | succ f =>
      have hbody : n ++ tailJoin rest ≠ [] := by simp [hn]
      have hheadns : (n ++ tailJoin rest).takeWhile pyIsSpace = [] := by
        cases n with
        | nil => exact absurd rfl hn
        | cons c n1 =>
          have : pyIsSpace c = false :=
            nick_not_space (hnick c (List.mem_cons_self c n1))
          simp [List.takeWhile_cons, this]
      have hheadds : (n ++ tailJoin rest).dropWhile pyIsSpace = n ++ tailJoin rest := by
        cases n with
        | nil => exact absurd rfl hn
        | cons c n1 =>
          have : pyIsSpace c = false :=
            nick_not_space (hnick c (List.mem_cons_self c n1))
          simp [List.dropWhile_cons, this]
      have hflags : ∀ c ∈ n ++ tailJoin rest, isFlagEnd c = false := by
        intro c hc
        rcases List.mem_append.mp hc with h | h
        · exact nick_not_flag (hnick c h)
        · rcases tailJoin_mem rest c h with rfl | ⟨m, hm, hcm⟩
          · decide
          · exact nick_not_flag ((hgood2 m hm).2 c hcm)
      have hla : lookaheadFlag (n ++ tailJoin rest) = false := lookaheadFlag_false _ hflags
      have hnp : nickParse (n ++ tailJoin rest) = some (n, tailJoin rest) :=
        nickParse_name n (tailJoin rest) hn hnick (tailJoin_shape rest)
      have hiter : starIter (tailJoin (n :: rest)) = some (',' :: n, tailJoin rest) := by
        show starIter (',' :: (n ++ tailJoin rest)) = some (',' :: n, tailJoin rest)
        have step : starIter (',' :: (n ++ tailJoin rest)) =
            if isListSep ',' then
              if lookaheadFlag ((n ++ tailJoin rest).dropWhile pyIsSpace) then none
              else
                match nickParse ((n ++ tailJoin rest).dropWhile pyIsSpace) with
                | some (nk, r2) =>
                  some (',' :: (n ++ tailJoin rest).takeWhile pyIsSpace ++ nk, r2)
                | none => none
            else none := rfl
        rw [step, if_pos (by decide)]
        rw [hheadds, hla]
        rw [if_neg (by simp)]
        rw [hnp, hheadns]
        rfl
      have hrec : starLoopF f (tailJoin rest) = (tailJoin rest, []) := by
        apply ih hgood2
        have := hf
        simp only [tailJoin, List.length_cons, List.length_append] at this
        omega
      rw [show starLoopF (f + 1) (tailJoin (n :: rest)) =
        match starIter (tailJoin (n :: rest)) with
        | none => ([], tailJoin (n :: rest))
        | some (con, rest2) =>
          (con ++ (starLoopF f rest2).1, (starLoopF f rest2).2) from rfl]
      rw [hiter]
      simp only [hrec]
      show (',' :: n ++ tailJoin rest, []) = (tailJoin (n :: rest), [])
      rfl

theorem parseRevs_joinComma (R : List (List Char)) (hR : R ≠ [])
    (hgood : ∀ n ∈ R, n ≠ [] ∧ ∀ c ∈ n, nickChar c = true) :
    parseRevs (joinComma R) = some (joinComma R, []) := by
  cases R with
  | nil => exact absurd rfl hR
  | cons n rest =>
    have hn : n ≠ [] := (hgood n (List.mem_cons_self n rest)).1
    have hnick : ∀ c ∈ n, nickChar c = true := (hgood n (List.mem_cons_self n rest)).2
    have hgood2 : ∀ m ∈ rest, m ≠ [] ∧ ∀ c ∈ m, nickChar c = true :=
      fun m hm => hgood m (List.mem_cons_of_mem n hm)
    rw [joinComma_eq_tailJoin rest n]
    unfold parseRevs
    rw [nickParse_name n (tailJoin rest) hn hnick (tailJoin_shape rest)]
    show some (n ++ (starLoopF (tailJoin rest).length (tailJoin rest)).1,
      (starLoopF (tailJoin rest).length (tailJoin rest)).2) =
        some (n ++ tailJoin rest, [])
    rw [starLoopF_tailJoin rest hgood2 (tailJoin rest).length (Nat.le_refl _)]

theorem specAt_none_of_flag_pos :
    ∀ (s : List Char),
      (∀ c, s.get? 1 = some c → isFlagEnd c = false) →
      (∀ c, s.get? 2 = some c → isFlagEnd c = false) →
      (∀ c, s.get? 4 = some c → isFlagEnd c = false) →
      specAt s = none := by
  intro s h1 h2 h4
  obtain _ | ⟨c1, _ | ⟨c2, _ | ⟨c3, _ | ⟨c4, _ | ⟨c5, s5⟩⟩⟩⟩⟩ := s
  · rfl
  · simp [specAt]
  · have hA : isFlagEnd c2 = false := h1 c2 rfl
    simp [specAt, hA]
  · have hA : isFlagEnd c2 = false := h1 c2 rfl
    have hB : isFlagEnd c3 = false := h2 c3 rfl
    simp [specAt, hA, hB]
  · have hA : isFlagEnd c2 = false := h1 c2 rfl
    have hB : isFlagEnd c3 = false := h2 c3 rfl
    simp [specAt, hA, hB]
  · have hA : isFlagEnd c2 = false := h1 c2 rfl
    have hB : isFlagEnd c3 = false := h2 c3 rfl
    have hC : isFlagEnd c5 = false := h4 c5 rfl
    simp [specAt, hA, hB, hC]

theorem specAt_none_of_safe (s : List Char) (h : ∀ c ∈ s, isFlagEnd c = false) :
    specAt s = none := by
  apply specAt_none_of_flag_pos <;> intro c hc <;> exact h c (List.get?_mem hc)

theorem specAt_none_two_safe (d1 d2 : Char) (j : List Char)
    (h2 : isFlagEnd d2 = false) :
    specAt (d1 :: d2 :: ' ' :: 'r' :: '=' :: j) = none := by
  simp [specAt, h2, (by decide : isFlagEnd ' ' = false)]

theorem specAt_annot_none (l j : List Char)
    (hl : ∀ c ∈ l, isFlagEnd c = false)
    (hj : ∀ c ∈ j, isFlagEnd c = false) :
    specAt (l ++ ' ' :: 'r' :: '=' :: j) = none := by
  obtain _ | ⟨d1, _ | ⟨d2, _ | ⟨d3, _ | ⟨d4, l5⟩⟩⟩⟩ := l
  · simp [specAt]
  · apply specAt_none_of_flag_pos
    · intro c hc
      simp only [List.cons_append, List.nil_append, List.get?] at hc
      exact (Option.some.injEq _ _).mp hc ▸ (by decide)
    · intro c hc
      simp only [List.cons_append, List.nil_append, List.get?] at hc
      exact (Option.some.injEq _ _).mp hc ▸ (by decide)
    · intro c hc
      simp only [List.cons_append, List.nil_append, List.get?] at hc
      exact hj c (List.get?_mem hc)
  · exact specAt_none_two_safe d1 d2 j (hl d2 (by simp))
  · apply specAt_none_of_flag_pos
    · intro c hc
      simp only [List.cons_append, List.nil_append, List.get?] at hc
      exact (Option.some.injEq _ _).mp hc ▸ hl d2 (by simp)
    · intro c hc
      simp only [List.cons_append, List.nil_append, List.get?] at hc
      exact (Option.some.injEq _ _).mp hc ▸ hl d3 (by simp)
    · intro c hc
      simp only [List.cons_append, List.nil_append, List.get?] at hc
      exact (Option.some.injEq _ _).mp hc ▸ (by decide)
  · apply specAt_none_of_flag_pos
    · intro c hc
      simp only [List.cons_append, List.get?] at hc
      exact (Option.some.injEq _ _).mp hc ▸ hl d2 (by simp)
    · intro c hc
      simp only [List.cons_append, List.get?] at hc
      exact (Option.some.injEq _ _).mp hc ▸ hl d3 (by simp)
    · intro c hc
      simp only [List.cons_append, List.get?] at hc
      cases l5 with
      | nil =>
        simp only [List.nil_append, List.get?] at hc
        exact (Option.some.injEq _ _).mp hc ▸ (by decide)
      | cons e l6 =>
        simp only [List.cons_append, List.get?] at hc
        exact (Option.some.injEq _ _).mp hc ▸ hl e (by simp)

theorem tryMatch_of_specAt_none (c : Char) (s1 : List Char)
    (h : specAt s1 = none) : tryMatch (c :: s1) = none := by
  have step : tryMatch (c :: s1) =
      if isDelimChar c then
        match specAt s1 with
        | none => none
        | some (sp, r1) =>
          match parseRevs r1 with
          | some (rv, r2) => some ⟨c, sp, rv, r2⟩
          | none => some ⟨c, sp, [], r1⟩
      else none := rfl
  rw [step, h]
  simp

theorem subRevF_nil (rstr : List Char) (fuel : Nat) (first : Bool) :
    subRevF rstr fuel first [] = ([], first) := by
  cases fuel <;> rfl

theorem tryMatch_annot (j : List Char) (hpr : parseRevs j = some (j, [])) :
    tryMatch (' ' :: 'r' :: '=' :: j) = some ⟨' ', ['r', '='], j, []⟩ := by
  have step : tryMatch (' ' :: 'r' :: '=' :: j) =
      if isDelimChar ' ' then
        match specAt ('r' :: '=' :: j) with
        | none => none
        | some (sp, r1) =>
          match parseRevs r1 with
          | some (rv, r2) => some ⟨' ', sp, rv, r2⟩
          | none => some ⟨' ', sp, [], r1⟩
      else none := rfl
  rw [step, if_pos (by decide)]
  have hspec : specAt ('r' :: '=' :: j) = some (['r', '='], j) := rfl
  rw [hspec]
  show (match parseRevs j with
    | some (rv, r2) => some (RMatch.mk ' ' ['r', '='] rv r2)
    | none => some (RMatch.mk ' ' ['r', '='] [] j)) =
      some (RMatch.mk ' ' ['r', '='] j [])
  rw [hpr]

theorem subRevF_id_of_safe (rstr : List Char) :
    ∀ (fuel : Nat) (first : Bool) (s : List Char),
      (∀ c ∈ s, isFlagEnd c = false) →
      subRevF rstr fuel first s = (s, first) := by
  intro fuel
  induction fuel with
  | zero => intro first s _; rfl
  | succ n ih =>
    intro first s h
    cases s with
    | nil => rfl
    | cons c tail =>
      have hspec : specAt tail = none :=
        specAt_none_of_safe tail (fun d hd => h d (List.mem_cons_of_mem c hd))
      have htm := tryMatch_of_specAt_none c tail hspec
      rw [subRevF_cons, htm]
      show (c :: (subRevF rstr n first tail).1, (subRevF rstr n first tail).2) =
        (c :: tail, first)
      rw [ih first tail (fun d hd => h d (List.mem_cons_of_mem c hd))]

theorem subRevF_annot (j : List Char)
    (hjflag : ∀ c ∈ j, isFlagEnd c = false)
    (hpr : parseRevs j = some (j, [])) :
    ∀ (l : List Char) (fuel : Nat), (∀ c ∈ l, isFlagEnd c = false) →
      (l ++ ' ' :: 'r' :: '=' :: j).length ≤ fuel →
      subRevF ('r' :: '=' :: j) fuel true (l ++ ' ' :: 'r' :: '=' :: j) =
        (l ++ ' ' :: 'r' :: '=' :: j, false) := by
  intro l
  induction l with
  | nil =>
    intro fuel _ hf
    cases fuel with
    | zero => exact absurd hf (by simp)
    | succ f =>
      have htm := tryMatch_annot j hpr
      simp only [List.nil_append]
      rw [subRevF_cons, htm]
      show (' ' :: ('r' :: '=' :: j) ++ (subRevF ('r' :: '=' :: j) f false []).1,
        (subRevF ('r' :: '=' :: j) f false []).2) = (' ' :: 'r' :: '=' :: j, false)
      rw [subRevF_nil]
      simp
  | cons c l2 ih =>
    intro fuel hsafe hf
    cases fuel with
    | zero => exact absurd hf (by simp)
    | succ f =>
      have hsafe2 : ∀ d ∈ l2, isFlagEnd d = false :=
        fun d hd => hsafe d (List.mem_cons_of_mem c hd)
      have hspec : specAt (l2 ++ ' ' :: 'r' :: '=' :: j) = none :=
        specAt_annot_none l2 j hsafe2 hjflag
      have htm := tryMatch_of_specAt_none c _ hspec
      rw [List.cons_append, subRevF_cons, htm]
      have hf2 : (l2 ++ ' ' :: 'r' :: '=' :: j).length ≤ f := by
        have := hf
        simp only [List.cons_append, List.length_cons] at this
        omega
      show (c :: (subRevF ('r' :: '=' :: j) f true (l2 ++ ' ' :: 'r' :: '=' :: j)).1,
        (subRevF ('r' :: '=' :: j) f true (l2 ++ ' ' :: 'r' :: '=' :: j)).2) =
        (c :: (l2 ++ ' ' :: 'r' :: '=' :: j), false)
      rw [ih f hsafe2 hf2]

theorem tryMatch_not_delim (c : Char) (s1 : List Char) (h : isDelimChar c = false) :
    tryMatch (c :: s1) = none := by
  have step : tryMatch (c :: s1) =
      if isDelimChar c then
        match specAt s1 with
        | none => none
        | some (sp, r1) =>
          match parseRevs r1 with
          | some (rv, r2) => some ⟨c, sp, rv, r2⟩
          | none => some ⟨c, sp, [], r1⟩
      else none := rfl
  rw [step, h]
  simp

theorem rSpecSearch_rstr (j : List Char) : rSpecSearch ('r' :: '=' :: j) = true := rfl

theorem subRevF_rstr (j : List Char) (hjflag : ∀ c ∈ j, isFlagEnd c = false) :
    ∀ (fuel : Nat),
      subRevF ('r' :: '=' :: j) fuel true ('r' :: '=' :: j) = ('r' :: '=' :: j, true) := by
  intro fuel
  cases fuel with
  | zero => rfl
  | succ f =>
    rw [subRevF_cons, tryMatch_not_delim 'r' _ (by decide)]
    show ('r' :: (subRevF ('r' :: '=' :: j) f true ('=' :: j)).1,
      (subRevF ('r' :: '=' :: j) f true ('=' :: j)).2) = ('r' :: '=' :: j, true)
    cases f with
    | zero => rfl
    | succ f2 =>
      rw [subRevF_cons, tryMatch_not_delim '=' _ (by decide)]
      show ('r' :: '=' :: (subRevF ('r' :: '=' :: j) f2 true j).1,
        (subRevF ('r' :: '=' :: j) f2 true j).2) = ('r' :: '=' :: j, true)
      rw [subRevF_id_of_safe _ f2 true j hjflag]

theorem pyStrip_append_annot (line j : List Char)
    (hjns : ∀ c ∈ j, pyIsSpace c = false) :
    pyStrip (line ++ ' ' :: 'r' :: '=' :: j) =
      if line.dropWhile pyIsSpace = [] then 'r' :: '=' :: j
      else line.dropWhile pyIsSpace ++ ' ' :: 'r' :: '=' :: j := by
  have hall : ∀ c ∈ 'r' :: '=' :: j, pyIsSpace c = false := by
    intro c hc
    rcases List.mem_cons.mp hc with rfl | hc2
    · decide
    · rcases List.mem_cons.mp hc2 with rfl | hc3
      · decide
      · exact hjns c hc3
  have hdt : dropTrail ('r' :: '=' :: j) = 'r' :: '=' :: j :=
    dropTrail_all_nonspace _ hall
  unfold pyStrip
  rw [dropWhile_append_split]
  by_cases h0 : line.dropWhile pyIsSpace = []
  · rw [if_pos h0, if_pos h0]
    have hsp : (' ' :: 'r' :: '=' :: j).dropWhile pyIsSpace = 'r' :: '=' :: j := by
      simp [List.dropWhile_cons, (by decide : pyIsSpace ' ' = true),
        (by decide : pyIsSpace 'r' = false)]
    rw [hsp, hdt]
  · rw [if_neg h0, if_neg h0]
    have hne2 : dropTrail ('r' :: '=' :: j) ≠ [] := by rw [hdt]; simp
    calc dropTrail (line.dropWhile pyIsSpace ++ ' ' :: 'r' :: '=' :: j)
        = dropTrail ((line.dropWhile pyIsSpace ++ [' ']) ++ 'r' :: '=' :: j) := by simp
      _ = (line.dropWhile pyIsSpace ++ [' ']) ++ dropTrail ('r' :: '=' :: j) :=
          dropTrail_append_of_ne _ _ hne2
      _ = line.dropWhile pyIsSpace ++ ' ' :: 'r' :: '=' :: j := by rw [hdt]; simp

theorem replaceReviewers_nil (reviewers : List (List Char)) :
    replaceReviewers [] reviewers = reviewersText reviewers := rfl

theorem replaceReviewers_append_eq (line : List Char) (reviewers : List (List Char))
    (hne : line ≠ []) (hlb : ∀ c ∈ line, isLineBreak c = false)
    (hsearch : rSpecSearch line = false) (hrev : reviewers ≠ []) :
    replaceReviewers line reviewers =
      pyStrip (line ++ ' ' :: 'r' :: '=' :: joinComma reviewers) := by
  unfold replaceReviewers
  rw [if_neg hne, pySplitlines_noLB line hlb hne]
  simp only [List.headD, List.tail, List.intercalate, List.intersperse, List.flatten,
    reviewersText, if_neg hrev, hsearch, Bool.false_eq_true, if_false, if_true]

theorem replaceReviewers_search_eq (line : List Char) (reviewers : List (List Char))
    (hlb : ∀ c ∈ line, isLineBreak c = false) (hne : line ≠ [])
    (hsearch : rSpecSearch line = true) :
    replaceReviewers line reviewers =
      pyStrip (removeNull (stripListNull (subRevOut (reviewersText reviewers) line))) := by
  unfold replaceReviewers
  rw [if_neg hne, pySplitlines_noLB line hlb hne]
  simp only [List.headD, List.tail, List.intercalate, List.intersperse, List.flatten,
    hsearch, if_true]

/-- C8 (amended): idempotence holds on the class of summaries actually
rewritten by the append branch — single-line printable-ASCII text with no
`=`/`?` characters — when every reviewer identity is a nonempty IRC-nick
string; on arbitrary lines the rewrite is not idempotent (see the
counterexample: a bare specifier with an empty reviewer-list capture makes
the second pass consume text the first pass left alone). -/
theorem c8_idempotent_on_safe_lines (line : List Char) (R : List (List Char))
    (hprint : ∀ c ∈ line, 32 ≤ c.toNat ∧ c.toNat ≤ 126)
    (hflag : ∀ c ∈ line, isFlagEnd c = false)
    (hR : R ≠ [])
    (hgood : ∀ n ∈ R, n ≠ [] ∧ ∀ c ∈ n, nickChar c = true) :
    replaceReviewers (replaceReviewers line R) R = replaceReviewers line R := by
  have hjmem : ∀ c ∈ joinComma R, c = ',' ∨ nickChar c = true := by
    intro c hc
    rcases joinComma_mem R c hc with h | ⟨n, hn, hcn⟩
    · exact Or.inl h
    · exact Or.inr ((hgood n hn).2 c hcn)
  have hjflag : ∀ c ∈ joinComma R, isFlagEnd c = false := by
    intro c hc
    rcases hjmem c hc with rfl | h
    · decide
    · exact nick_not_flag h
  have hjns : ∀ c ∈ joinComma R, pyIsSpace c = false := by
    intro c hc
    rcases hjmem c hc with rfl | h
    · decide
    · exact nick_not_space h
  have hjnl : ∀ c ∈ joinComma R, isLineBreak c = false := by
    intro c hc
    rcases hjmem c hc with rfl | h
    · decide
    · exact nick_not_lb h
  have hjnn : ∀ c ∈ joinComma R, c ≠ '\x00' := by
    intro c hc
    rcases hjmem c hc with rfl | h
    · decide
    · exact nick_ne_nul h
  have hpr : parseRevs (joinComma R) = some (joinComma R, []) :=
    parseRevs_joinComma R hR hgood
  have hrstr : reviewersText R = 'r' :: '=' :: joinComma R := by
    unfold reviewersText
    rw [if_neg hR]
  have hlb : ∀ c ∈ line, isLineBreak c = false :=
    fun c hc => printable_not_lb (hprint c hc)
  have hsearch : rSpecSearch line = false :=
    rSpecSearchAux_false_of_no_flag line false hflag
  have pass1 : replaceReviewers line R =
      pyStrip (line ++ ' ' :: 'r' :: '=' :: joinComma R) := by
    by_cases hline : line = []
    · subst hline
      rw [replaceReviewers_nil, hrstr]
      have hps := pyStrip_append_annot [] (joinComma R) hjns
      simp only [List.nil_append] at hps ⊢
      rw [hps]
      simp [List.dropWhile]
    · exact replaceReviewers_append_eq line R hline hlb hsearch hR
  rw [pass1, pyStrip_append_annot line (joinComma R) hjns]
  by_cases h0 : line.dropWhile pyIsSpace = []
  · rw [if_pos h0]
    have houtlb : ∀ c ∈ 'r' :: '=' :: joinComma R, isLineBreak c = false := by
      intro c hc
      rcases List.mem_cons.mp hc with rfl | hc2
      · decide
      · rcases List.mem_cons.mp hc2 with rfl | hc3
        · decide
        · exact hjnl c hc3
    have houtnn : ∀ c ∈ 'r' :: '=' :: joinComma R, c ≠ '\x00' := by
      intro c hc
      rcases List.mem_cons.mp hc with rfl | hc2
      · decide
      · rcases List.mem_cons.mp hc2 with rfl | hc3
        · decide
        · exact hjnn c hc3
    have houtns : ∀ c ∈ 'r' :: '=' :: joinComma R, pyIsSpace c = false := by
      intro c hc
      rcases List.mem_cons.mp hc with rfl | hc2
      · decide
      · rcases List.mem_cons.mp hc2 with rfl | hc3
        · decide
        · exact hjns c hc3
    rw [replaceReviewers_search_eq _ R houtlb (by simp) (rSpecSearch_rstr _)]
    unfold subRevOut
    rw [hrstr, subRevF_rstr (joinComma R) hjflag]
    show pyStrip (removeNull (stripListNull ('r' :: '=' :: joinComma R))) =
      'r' :: '=' :: joinComma R
    unfold stripListNull
    rw [stripListNullF_id _ _ houtnn, removeNull_id _ houtnn]
    unfold pyStrip
    rw [show List.dropWhile pyIsSpace ('r' :: '=' :: joinComma R) =
      'r' :: '=' :: joinComma R from by
        simp [List.dropWhile_cons, (by decide : pyIsSpace 'r' = false)]]
    exact dropTrail_all_nonspace _ houtns
  · rw [if_neg h0]
    have hl0sub : ∀ c ∈ line.dropWhile pyIsSpace, c ∈ line :=
      fun c hc => mem_of_mem_dropWhile hc
    have hl0flag : ∀ c ∈ line.dropWhile pyIsSpace, isFlagEnd c = false :=
      fun c hc => hflag c (hl0sub c hc)
    have houtlb : ∀ c ∈ line.dropWhile pyIsSpace ++ ' ' :: 'r' :: '=' :: joinComma R,
        isLineBreak c = false := by
      intro c hc
      rcases List.mem_append.mp hc with h | h
      · exact hlb c (hl0sub c h)
      · rcases List.mem_cons.mp h with rfl | h2
        · decide
        · rcases List.mem_cons.mp h2 with rfl | h3
          · decide
          · rcases List.mem_cons.mp h3 with rfl | h4
            · decide
            · exact hjnl c h4
    have houtnn : ∀ c ∈ line.dropWhile pyIsSpace ++ ' ' :: 'r' :: '=' :: joinComma R,
        c ≠ '\x00' := by
      intro c hc
      rcases List.mem_append.mp hc with h | h
      · exact printable_not_nul (hprint c (hl0sub c h))
      · rcases List.mem_cons.mp h with rfl | h2
        · decide
        · rcases List.mem_cons.mp h2 with rfl | h3
          · decide
          · rcases List.mem_cons.mp h3 with rfl | h4
            · decide
            · exact hjnn c h4
    have hsearch2 :
        rSpecSearch (line.dropWhile pyIsSpace ++ ' ' :: 'r' :: '=' :: joinComma R) = true :=
      rSpecSearchAux_annot (line.dropWhile pyIsSpace) false (joinComma R)
    rw [replaceReviewers_search_eq _ R houtlb (by simp) hsearch2]
    unfold subRevOut
    rw [hrstr, subRevF_annot (joinComma R) hjflag hpr (line.dropWhile pyIsSpace) _
      hl0flag (Nat.le_refl _)]
    show pyStrip (removeNull (stripListNull
      (line.dropWhile pyIsSpace ++ ' ' :: 'r' :: '=' :: joinComma R))) =
      line.dropWhile pyIsSpace ++ ' ' :: 'r' :: '=' :: joinComma R
    unfold stripListNull
    rw [stripListNullF_id _ _ houtnn, removeNull_id _ houtnn]
    have hps : pyStrip (line ++ ' ' :: 'r' :: '=' :: joinComma R) =
        line.dropWhile pyIsSpace ++ ' ' :: 'r' :: '=' :: joinComma R := by
      rw [pyStrip_append_annot line (joinComma R) hjns, if_neg h0]
    calc pyStrip (line.dropWhile pyIsSpace ++ ' ' :: 'r' :: '=' :: joinComma R)
        = pyStrip (pyStrip (line ++ ' ' :: 'r' :: '=' :: joinComma R)) := by rw [hps]
      _ = pyStrip (line ++ ' ' :: 'r' :: '=' :: joinComma R) := pyStrip_idem _
      _ = line.dropWhile pyIsSpace ++ ' ' :: 'r' :: '=' :: joinComma R := hps

/-- C8 witness: idempotence evaluated on `Fix bug` with reviewer `dave`. -/
theorem c8_idempotent_on_safe_lines_witness :
    replaceReviewers
        (replaceReviewers ['F', 'i', 'x', ' ', 'b', 'u', 'g'] [['d', 'a', 'v', 'e']])
        [['d', 'a', 'v', 'e']] =
      replaceReviewers ['F', 'i', 'x', ' ', 'b', 'u', 'g'] [['d', 'a', 'v', 'e']] :=
  c8_idempotent_on_safe_lines ['F', 'i', 'x', ' ', 'b', 'u', 'g'] [['d', 'a', 'v', 'e']]
    (by decide) (by decide) (by decide) (by decide)

/-- C8 counterexample: rewriting is not idempotent in general.  On
`Fix r=; x` with reviewer set `{a}` the first pass yields `Fix r=a; x`
(the bare `r=` had an empty reviewer-list capture, so `; x` was outside the
match), while the second pass parses `r=a; x` as one annotation and yields
`Fix r=a`. -/
theorem c8_idempotence_counterexample :
    replaceReviewers
        (replaceReviewers ['F', 'i', 'x', ' ', 'r', '=', ';', ' ', 'x'] [['a']])
        [['a']] ≠
      replaceReviewers ['F', 'i', 'x', ' ', 'r', '=', ';', ' ', 'x'] [['a']] := by
  decide
